import Mathlib

/-!
Verification of the string-interning library (`crispy-strings`).

The development shallowly embeds the Rust sources:

* `src/sync/trie.rs` — a suffix trie `Trie<T>` mapping character paths to
  byte `Span`s (`Range<usize>`), with `get`, `insert` (which also inserts
  every proper suffix) and `insert_one`.  The `HashMap` of children is
  modelled as an association list (`alookup` / `aset`), which has the same
  observable behaviour through lookup.
* `src/unsync/interning.rs` — the single-owner interner: `try_intern`,
  `intern`, `Intern::get_ref`, `Drop for InternRef`, over a backing
  `String` store.  The store is modelled as a `List Char`; Rust's *byte*
  based `String::len` and `&store[range]` slicing are modelled faithfully
  through `utf8Len` / `strSlice`, which count `Char.utf8Size` bytes per
  character and fail (Rust panic) when a range boundary does not land on a
  character boundary.
* `src/sync/interning.rs` — the thread-safe interner: the reference
  counters of `get_ref` / `Drop for InternRef` and the condition-variable
  wait of `intern` / `try_intern` are modelled as explicit transition
  systems over thread events.

Fallible operations return `Option` / explicit result types; `none` (or the
`panicked` constructor) models a Rust panic.
-/

set_option autoImplicit false

namespace CrispyStrings

/-! ### Association lists, modelling `std::collections::HashMap` -/

/-- Lookup in an association list: the model of `HashMap::get`. -/
def alookup {κ β : Type} [DecidableEq κ] : List (κ × β) → κ → Option β
  | [], _ => none
  | (k, v) :: rest, a => if k = a then some v else alookup rest a

/-- Replace the binding of a key (or append one): the model of
`HashMap::insert` as observed through `alookup`. -/
def aset {κ β : Type} [DecidableEq κ] : List (κ × β) → κ → β → List (κ × β)
  | [], a, v => [(a, v)]
  | (k, u) :: rest, a, v => if k = a then (a, v) :: rest else (k, u) :: aset rest a v

@[simp] theorem alookup_nil {κ β : Type} [DecidableEq κ] (a : κ) :
    alookup ([] : List (κ × β)) a = none := rfl

@[simp] theorem alookup_cons {κ β : Type} [DecidableEq κ] (k : κ) (v : β)
    (rest : List (κ × β)) (a : κ) :
    alookup ((k, v) :: rest) a = if k = a then some v else alookup rest a := rfl

theorem alookup_aset_self {κ β : Type} [DecidableEq κ]
    (l : List (κ × β)) (a : κ) (v : β) : alookup (aset l a v) a = some v := by
  induction l with
  | nil => simp [aset]
  | cons p rest ih =>
    obtain ⟨k, u⟩ := p
    by_cases h : k = a <;> simp [aset, h, ih]

theorem alookup_aset_ne {κ β : Type} [DecidableEq κ]
    (l : List (κ × β)) (a b : κ) (v : β) (hne : b ≠ a) :
    alookup (aset l a v) b = alookup l b := by
  have hne' : a ≠ b := Ne.symm hne
  induction l with
  | nil => simp [aset, alookup, hne']
  | cons p rest ih =>
    obtain ⟨k, u⟩ := p
    by_cases h : k = a
    · subst h
      simp [aset, alookup, hne']
    · simp only [aset, if_neg h]
      by_cases hk : k = b <;> simp [alookup, hk, ih]

/-! ### The suffix trie (`src/sync/trie.rs`) -/

/-- A `Span` is a half-open byte range `start..stop` into the backing
store, modelling `type Span = Range<usize>`. -/
abbrev Span := Nat × Nat

/-- The `span(start, length)` constructor from `trie.rs`:
`start..(start + length)`. -/
def mkSpan (start length : Nat) : Span := (start, start + length)

/-- The trie node: `struct Trie<T> { span: Span, leaf_map: HashMap<T, Trie<T>> }`. -/
inductive Trie (α : Type) where
  | node (sp : Span) (children : List (α × Trie α))

/-- The span stored at a node. -/
def Trie.rootSpan {α : Type} : Trie α → Span
  | .node sp _ => sp

/-- The children map of a node. -/
def Trie.children {α : Type} : Trie α → List (α × Trie α)
  | .node _ ch => ch

/-- Model of `Trie::new()`: root carries span `[0,0)` and no children. -/
def Trie.new {α : Type} : Trie α := .node (mkSpan 0 0) []

/-- Model of `Trie::get`: walk the key; if a child is missing return `None`, if the
key is exhausted return the current node's span.  (The Rust signature takes
`&mut self` but performs no mutation.) -/
def Trie.get {α : Type} [DecidableEq α] : Trie α → List α → Option Span
  | .node sp _, [] => some sp
  | .node _ ch, a :: key =>
    match alookup ch a with
    | none => none
    | some t => t.get key

/-- The subtree reached by following a path, if every child on the path
exists.  Used to state that `get` answers only along fully present paths. -/
def Trie.subtrieAt {α : Type} [DecidableEq α] : Trie α → List α → Option (Trie α)
  | t, [] => some t
  | .node _ ch, a :: key =>
    match alookup ch a with
    | none => none
    | some t => t.subtrieAt key

/-- Model of `Trie::insert_one`: walk the key, creating any missing node with span
`span(start, span_len)` where `span_len` counts the characters consumed so
far (the `depth` argument accumulates the characters already consumed);
existing nodes are never overwritten.  Returns the final node's span. -/
def Trie.insertOne {α : Type} [DecidableEq α] : Trie α → List α → Nat → Nat → Span × Trie α
  | .node sp ch, [], _, _ => (sp, .node sp ch)
  | .node sp ch, a :: key, start, depth =>
    let child := match alookup ch a with
      | some u => u
      | none => Trie.node (mkSpan start (depth + 1)) []
    let r := Trie.insertOne child key start (depth + 1)
    (r.1, .node sp (aset ch a r.2))

/-- The suffix loop of `Trie::insert`: after the full key is inserted, the
loop advances `start` by one and consumes one character per iteration,
inserting each remaining suffix (including a final no-op empty insert). -/
def Trie.insertSuffixes {α : Type} [DecidableEq α] : Trie α → List α → Nat → Trie α
  | t, [], _ => t
  | t, _ :: key, start => Trie.insertSuffixes (Trie.insertOne t key start 0).2 key (start + 1)

/-- Model of `Trie::insert`: insert the full key at `start`, then all proper
suffixes at successive offsets; return the full key's span. -/
def Trie.insert {α : Type} [DecidableEq α] (t : Trie α) (key : List α) (start : Nat) :
    Span × Trie α :=
  let r := Trie.insertOne t key start 0
  (r.1, Trie.insertSuffixes r.2 key (start + 1))

@[simp] theorem Trie.get_node_nil {α : Type} [DecidableEq α] (sp : Span)
    (ch : List (α × Trie α)) : Trie.get (.node sp ch) [] = some sp := rfl

@[simp] theorem Trie.get_node_cons {α : Type} [DecidableEq α] (sp : Span)
    (ch : List (α × Trie α)) (a : α) (key : List α) :
    Trie.get (.node sp ch) (a :: key) =
      match alookup ch a with
      | none => none
      | some t => t.get key := rfl

@[simp] theorem Trie.rootSpan_node {α : Type} (sp : Span) (ch : List (α × Trie α)) :
    Trie.rootSpan (.node sp ch) = sp := rfl

/-- Lookup `get` on the empty key always answers the root span. -/
theorem Trie.get_nil {α : Type} [DecidableEq α] (t : Trie α) :
    t.get [] = some t.rootSpan := by
  cases t
  rfl

/-- Insertion via `insert_one` leaves the root node's span untouched. -/
theorem Trie.insertOne_rootSpan {α : Type} [DecidableEq α]
    (key : List α) (t : Trie α) (start depth : Nat) :
    ((t.insertOne key start depth).2).rootSpan = t.rootSpan := by
  cases t with
  | node sp ch => cases key <;> rfl

/-- The suffix loop leaves the root node's span untouched. -/
theorem Trie.insertSuffixes_rootSpan {α : Type} [DecidableEq α] :
    ∀ (key : List α) (t : Trie α) (start : Nat),
      (Trie.insertSuffixes t key start).rootSpan = t.rootSpan
  | [], _, _ => rfl
  | _ :: key, t, start => by
    rw [Trie.insertSuffixes, Trie.insertSuffixes_rootSpan key _ (start + 1),
      Trie.insertOne_rootSpan]

/-- Insertion via `insert` leaves the root node's span untouched. -/
theorem Trie.insert_rootSpan {α : Type} [DecidableEq α]
    (t : Trie α) (key : List α) (start : Nat) :
    ((t.insert key start).2).rootSpan = t.rootSpan := by
  rw [Trie.insert, Trie.insertSuffixes_rootSpan, Trie.insertOne_rootSpan]

/-- After `insert_one`, looking up the inserted key yields exactly the span
`insert_one` returned. -/
theorem Trie.insertOne_get_self {α : Type} [DecidableEq α] :
    ∀ (key : List α) (t : Trie α) (start depth : Nat),
      ((t.insertOne key start depth).2).get key = some (t.insertOne key start depth).1
  | [], .node _ _, _, _ => rfl
  | a :: key, .node sp ch, start, depth => by
    simp only [Trie.insertOne, Trie.get_node_cons, alookup_aset_self]
    exact Trie.insertOne_get_self key _ start (depth + 1)

/-- First-writer-wins at the level of `get`: a path answered by `get`
before an `insert_one` is answered identically afterwards.  In particular
no existing node's span is ever overwritten. -/
theorem Trie.insertOne_preserves {α : Type} [DecidableEq α] :
    ∀ (key : List α) (t : Trie α) (start depth : Nat) (p : List α) (sp : Span),
      t.get p = some sp → ((t.insertOne key start depth).2).get p = some sp
  | [], .node _ _, _, _, _, _, h => h
  | a :: key, .node sp0 ch, start, depth, [], sp, h => h
  | a :: key, .node sp0 ch, start, depth, b :: ps, sp, h => by
    simp only [Trie.get_node_cons] at h
    cases hb : alookup ch b with
    | none => rw [hb] at h; exact absurd h (by simp)
    | some u =>
      rw [hb] at h
      by_cases hba : b = a
      · subst hba
        simp only [Trie.insertOne, Trie.get_node_cons, alookup_aset_self, hb]
        exact Trie.insertOne_preserves key u start (depth + 1) ps sp h
      · simp only [Trie.insertOne, Trie.get_node_cons, alookup_aset_ne _ _ _ _ hba, hb]
        exact h

/-- The suffix loop preserves every `get` answer present before it. -/
theorem Trie.insertSuffixes_preserves {α : Type} [DecidableEq α] :
    ∀ (key : List α) (t : Trie α) (start : Nat) (p : List α) (sp : Span),
      t.get p = some sp → (Trie.insertSuffixes t key start).get p = some sp
  | [], _, _, _, _, h => h
  | _ :: key, t, start, p, sp, h =>
    Trie.insertSuffixes_preserves key _ (start + 1) p sp
      (Trie.insertOne_preserves key t start 0 p sp h)

/-- First-writer-wins for the full `insert`: any `get` answer present
before the insertion is unchanged by it. -/
theorem Trie.insert_preserves {α : Type} [DecidableEq α]
    (t : Trie α) (key : List α) (start : Nat) (p : List α) (sp : Span)
    (h : t.get p = some sp) : ((t.insert key start).2).get p = some sp :=
  Trie.insertSuffixes_preserves key _ (start + 1) p sp
    (Trie.insertOne_preserves key t start 0 p sp h)

/-- After `insert`, looking up the inserted key yields exactly the span
`insert` returned. -/
theorem Trie.insert_get_self {α : Type} [DecidableEq α]
    (t : Trie α) (key : List α) (start : Nat) :
    ((t.insert key start).2).get key = some (t.insert key start).1 :=
  Trie.insertSuffixes_preserves key _ (start + 1) key _
    (Trie.insertOne_get_self key t start 0)

/-- After `insert_one` of a key, every prefix of that key has a span in the
trie. -/
theorem Trie.insertOne_get_of_prefix {α : Type} [DecidableEq α] :
    ∀ (key : List α) (t : Trie α) (start depth : Nat) (p : List α), p <+: key →
      ∃ sp, ((t.insertOne key start depth).2).get p = some sp
  | key, t, start, depth, [], _ =>
    ⟨((t.insertOne key start depth).2).rootSpan, Trie.get_nil _⟩
  | [], t, start, depth, b :: ps, hpre =>
    absurd (List.prefix_nil.mp hpre) (by simp)
  | a :: key, .node sp ch, start, depth, b :: ps, hpre => by
    obtain ⟨hba, hps⟩ := List.cons_prefix_cons.mp hpre
    subst hba
    simp only [Trie.insertOne, Trie.get_node_cons, alookup_aset_self]
    exact Trie.insertOne_get_of_prefix key _ start (depth + 1) ps hps

/-- After the suffix loop over `key`, every prefix of `key.drop i`
(for `i ≥ 1`) has a span in the trie. -/
theorem Trie.insertSuffixes_cover {α : Type} [DecidableEq α] :
    ∀ (key : List α) (t : Trie α) (start i : Nat) (p : List α),
      1 ≤ i → p <+: key.drop i →
      ∃ sp, (Trie.insertSuffixes t key start).get p = some sp
  | [], t, start, i, p, _, hpre => by
    rw [List.drop_nil] at hpre
    obtain rfl := List.prefix_nil.mp hpre
    exact ⟨_, Trie.get_nil _⟩
  | a :: key, t, start, 1, p, _, hpre => by
    rw [List.drop_succ_cons, List.drop_zero] at hpre
    obtain ⟨sp, hsp⟩ := Trie.insertOne_get_of_prefix key t start 0 p hpre
    exact ⟨sp, Trie.insertSuffixes_preserves key _ (start + 1) p sp hsp⟩
  | a :: key, t, start, i + 2, p, _, hpre => by
    rw [List.drop_succ_cons] at hpre
    exact Trie.insertSuffixes_cover key _ (start + 1) (i + 1) p (Nat.le_add_left 1 i) hpre

/-- Substring retrievability: after `insert` of `key`, every infix of
`key` (every prefix of every suffix) has a span retrievable by `get`. -/
theorem Trie.insert_get_of_infix {α : Type} [DecidableEq α]
    (t : Trie α) (key : List α) (start : Nat) (p : List α) (h : p <:+: key) :
    ∃ sp, ((t.insert key start).2).get p = some sp := by
  obtain ⟨s, t2, hst⟩ := h
  rcases Nat.eq_zero_or_pos s.length with hs | hs
  · obtain rfl := List.length_eq_zero.mp hs
    have hpre : p <+: key := ⟨t2, by simpa using hst⟩
    obtain ⟨sp, hsp⟩ := Trie.insertOne_get_of_prefix key t start 0 p hpre
    exact ⟨sp, Trie.insertSuffixes_preserves key _ (start + 1) p sp hsp⟩
  · have hdrop : key.drop s.length = p ++ t2 := by
      rw [← hst, List.append_assoc, List.drop_left]
    have hpre : p <+: key.drop s.length := by rw [hdrop]; exact ⟨t2, rfl⟩
    exact Trie.insertSuffixes_cover key _ (start + 1) s.length p hs hpre

/-- Lookup `get` answers only along fully present paths: if the walk terminates
early (a child is missing), the result is `None`, never an ancestor's
span. -/
theorem Trie.get_eq_none_of_subtrie {α : Type} [DecidableEq α] :
    ∀ (t : Trie α) (key : List α), t.subtrieAt key = none → t.get key = none
  | t, [], h => absurd h (by simp [Trie.subtrieAt])
  | .node sp ch, a :: key, h => by
    simp only [Trie.subtrieAt] at h
    simp only [Trie.get_node_cons]
    cases hb : alookup ch a with
    | none => rfl
    | some u =>
      rw [hb] at h
      exact Trie.get_eq_none_of_subtrie u key h

/-- On a lookup miss, `insert_one` returns the span of the newly created
final node: it starts at `start` and its length is the full character count
walked from the root (`depth` already consumed plus the key). -/
theorem Trie.insertOne_span_of_miss {α : Type} [DecidableEq α] :
    ∀ (key : List α) (t : Trie α) (start depth : Nat),
      t.get key = none → (t.insertOne key start depth).1 = mkSpan start (depth + key.length)
  | [], t, start, depth, h => absurd h (by rw [Trie.get_nil]; simp)
  | a :: key, .node sp ch, start, depth, h => by
    simp only [Trie.get_node_cons] at h
    simp only [Trie.insertOne]
    cases ha : alookup ch a with
    | none =>
      cases key with
      | nil =>
        simp only [Trie.insertOne, Trie.rootSpan, mkSpan, List.length_cons,
          List.length_nil, Prod.mk.injEq, true_and]
      | cons b bs =>
        have hmiss : Trie.get (Trie.node (mkSpan start (depth + 1)) ([] : List (α × Trie α)))
            (b :: bs) = none := by simp [Trie.get_node_cons, alookup]
        rw [Trie.insertOne_span_of_miss (b :: bs) _ start (depth + 1) hmiss]
        simp only [mkSpan, List.length_cons, Prod.mk.injEq, true_and]
        omega
    | some u =>
      rw [ha] at h
      rw [Trie.insertOne_span_of_miss key u start (depth + 1) h]
      simp only [mkSpan, List.length_cons, Prod.mk.injEq, true_and]
      omega

/-- Origin of spans after `insert_one`: every `get` answer is either an
answer the trie already gave, or belongs to a nonempty prefix of the
inserted key and is the span of a node freshly created by this call. -/
theorem Trie.insertOne_get_cases {α : Type} [DecidableEq α] :
    ∀ (key : List α) (t : Trie α) (start depth : Nat) (p : List α) (sp : Span),
      ((t.insertOne key start depth).2).get p = some sp →
      t.get p = some sp ∨ (p <+: key ∧ 1 ≤ p.length ∧ sp = mkSpan start (depth + p.length))
  | [], .node _ _, _, _, _, _, h => Or.inl h
  | a :: key, .node sp0 ch, start, depth, [], sp, h => Or.inl h
  | a :: key, .node sp0 ch, start, depth, b :: ps, sp, h => by
    simp only [Trie.insertOne, Trie.get_node_cons] at h
    by_cases hba : b = a
    · subst hba
      rw [alookup_aset_self] at h
      cases hb : alookup ch b with
      | some u =>
        rw [hb] at h
        rcases Trie.insertOne_get_cases key u start (depth + 1) ps sp h with hold | hnew
        · exact Or.inl (by simp only [Trie.get_node_cons, hb]; exact hold)
        · refine Or.inr ⟨List.cons_prefix_cons.mpr ⟨rfl, hnew.1⟩, by simp, ?_⟩
          rw [hnew.2.2]
          simp only [mkSpan, List.length_cons, Prod.mk.injEq, true_and]
          omega
      | none =>
        rw [hb] at h
        rcases Trie.insertOne_get_cases key _ start (depth + 1) ps sp h with hold | hnew
        · cases ps with
          | nil =>
            rw [Trie.get_nil] at hold
            refine Or.inr ⟨List.cons_prefix_cons.mpr ⟨rfl, List.nil_prefix⟩, by simp, ?_⟩
            have : sp = mkSpan start (depth + 1) := by
              simpa [Trie.rootSpan] using hold.symm
            rw [this]
            simp only [mkSpan, List.length_cons, List.length_nil, Prod.mk.injEq, true_and]
          | cons c cs => simp [Trie.get_node_cons, alookup] at hold
        · refine Or.inr ⟨List.cons_prefix_cons.mpr ⟨rfl, hnew.1⟩, by simp, ?_⟩
          rw [hnew.2.2]
          simp only [mkSpan, List.length_cons, Prod.mk.injEq, true_and]
          omega
    · rw [alookup_aset_ne _ _ _ _ hba] at h
      exact Or.inl (by simp only [Trie.get_node_cons]; exact h)

/-- Origin of spans after the suffix loop: every `get` answer is either
pre-existing or the span of a node created for a prefix of some proper
suffix `key.drop j` (`j ≥ 1`) at offset `start + j - 1`. -/
theorem Trie.insertSuffixes_get_cases {α : Type} [DecidableEq α] :
    ∀ (key : List α) (t : Trie α) (start : Nat) (p : List α) (sp : Span),
      (Trie.insertSuffixes t key start).get p = some sp →
      t.get p = some sp ∨
        ∃ j, 1 ≤ j ∧ p <+: key.drop j ∧ 1 ≤ p.length ∧
          sp = mkSpan (start + j - 1) p.length
  | [], _, _, _, _, h => Or.inl h
  | a :: key, t, start, p, sp, h => by
    rcases Trie.insertSuffixes_get_cases key _ (start + 1) p sp h with hin | ⟨j, hj, hpre, hlen, hsp⟩
    · rcases Trie.insertOne_get_cases key t start 0 p sp hin with hold | hnew
      · exact Or.inl hold
      · refine Or.inr ⟨1, Nat.le_refl 1, ?_, hnew.2.1, ?_⟩
        · simpa using hnew.1
        · rw [hnew.2.2]
          simp only [mkSpan, Prod.mk.injEq]
          omega
    · refine Or.inr ⟨j + 1, by omega, ?_, hlen, ?_⟩
      · simpa [List.drop_succ_cons] using hpre
      · rw [hsp]
        simp only [mkSpan, Prod.mk.injEq]
        omega

/-- Origin of spans after a full `insert` of `key` at `start`: every `get`
answer is either pre-existing, or belongs to a nonempty prefix of some
suffix `key.drop i` and equals `span(start + i, p.length)`. -/
theorem Trie.insert_get_cases {α : Type} [DecidableEq α]
    (t : Trie α) (key : List α) (start : Nat) (p : List α) (sp : Span)
    (h : ((t.insert key start).2).get p = some sp) :
    t.get p = some sp ∨
      ∃ i, p <+: key.drop i ∧ 1 ≤ p.length ∧ sp = mkSpan (start + i) p.length := by
  rcases Trie.insertSuffixes_get_cases key _ (start + 1) p sp h with hin | ⟨j, hj, hpre, hlen, hsp⟩
  · rcases Trie.insertOne_get_cases key t start 0 p sp hin with hold | hnew
    · exact Or.inl hold
    · refine Or.inr ⟨0, by simpa using hnew.1, hnew.2.1, ?_⟩
      rw [hnew.2.2]
      simp only [mkSpan, Prod.mk.injEq]
      omega
  · refine Or.inr ⟨j, hpre, hlen, ?_⟩
    rw [hsp]
    simp only [mkSpan, Prod.mk.injEq]
    omega

/-! ### Byte-level model of the Rust `String` store

The backing store is a UTF-8 `String`.  `String::len` and `push_str` work
in bytes, while the trie walks `chars()`.  We model the store as the list
of its characters and account for bytes via `Char.utf8Size`. -/

/-- Byte length of a character list: the model of `String::len`. -/
def utf8Len (s : List Char) : Nat := (s.map Char.utf8Size).sum

@[simp] theorem utf8Len_nil : utf8Len [] = 0 := rfl

@[simp] theorem utf8Len_cons (c : Char) (s : List Char) :
    utf8Len (c :: s) = c.utf8Size + utf8Len s := by
  simp [utf8Len]

@[simp] theorem utf8Len_append (s t : List Char) :
    utf8Len (s ++ t) = utf8Len s + utf8Len t := by
  simp [utf8Len]

/-- Every character occupies at least one byte, so a string has at least as
many bytes as characters. -/
theorem length_le_utf8Len (s : List Char) : s.length ≤ utf8Len s := by
  induction s with
  | nil => simp
  | cons c t ih =>
    have := Char.utf8Size_pos c
    simp only [List.length_cons, utf8Len_cons]
    omega

/-- A nonempty string has nonzero byte length. -/
theorem utf8Len_pos (c : Char) (s : List Char) : 0 < utf8Len (c :: s) := by
  have := Char.utf8Size_pos c
  simp only [utf8Len_cons]
  omega

/-- Take a prefix of exactly `n` bytes from a character list; fails (the
model of a Rust slicing panic) when `n` overruns the string or does not
land on a character boundary. -/
def takeBytes : List Char → Nat → Option (List Char)
  | _, 0 => some []
  | [], _ + 1 => none
  | c :: cs, n + 1 =>
    if c.utf8Size ≤ n + 1 then (takeBytes cs (n + 1 - c.utf8Size)).map (c :: ·) else none

/-- Drop a prefix of exactly `n` bytes from a character list; fails when
`n` overruns the string or does not land on a character boundary. -/
def dropBytes : List Char → Nat → Option (List Char)
  | s, 0 => some s
  | [], _ + 1 => none
  | c :: cs, n + 1 =>
    if c.utf8Size ≤ n + 1 then dropBytes cs (n + 1 - c.utf8Size) else none

/-- Model of the Rust byte-range slice `&store[a..b]`: fails (Rust panics)
when `a > b`, when `b` exceeds the byte length, or when either bound is
not a character boundary. -/
def strSlice (s : List Char) (a b : Nat) : Option (List Char) :=
  if a ≤ b then (dropBytes s a).bind (fun t => takeBytes t (b - a)) else none

@[simp] theorem takeBytes_zero (s : List Char) : takeBytes s 0 = some [] := by
  cases s <;> rfl

@[simp] theorem dropBytes_zero (s : List Char) : dropBytes s 0 = some s := by
  cases s <;> rfl

@[simp] theorem strSlice_zero_zero (s : List Char) : strSlice s 0 0 = some [] := by
  simp [strSlice]

/-- A string every character of which is a single UTF-8 byte (in
particular any ASCII string). -/
def AsciiStr (s : List Char) : Prop := ∀ c ∈ s, c.utf8Size = 1

instance (s : List Char) : Decidable (AsciiStr s) := by
  unfold AsciiStr
  infer_instance

theorem AsciiStr.nil : AsciiStr [] := by intro c hc; cases hc

theorem AsciiStr.append {s t : List Char} (hs : AsciiStr s) (ht : AsciiStr t) :
    AsciiStr (s ++ t) := by
  intro c hc
  rcases List.mem_append.mp hc with h | h
  · exact hs c h
  · exact ht c h

/-- On a single-byte-per-character string, byte length and character count
agree. -/
theorem utf8Len_of_ascii {s : List Char} (h : AsciiStr s) : utf8Len s = s.length := by
  induction s with
  | nil => rfl
  | cons c t ih =>
    rw [utf8Len_cons, h c (by simp), ih (fun d hd => h d (by simp [hd]))]
    simp only [List.length_cons]
    omega

/-- On a single-byte-per-character string, `dropBytes` is plain `drop`. -/
theorem dropBytes_of_ascii {s : List Char} (h : AsciiStr s) :
    ∀ n, n ≤ s.length → dropBytes s n = some (s.drop n) := by
  induction s with
  | nil =>
    intro n hn
    rw [List.length_nil, Nat.le_zero] at hn
    subst hn
    simp
  | cons c t ih =>
    intro n hn
    cases n with
    | zero => simp
    | succ m =>
      rw [dropBytes, h c (by simp)]
      simp only [List.length_cons] at hn
      simp only [Nat.le_add_left 1 m, if_pos, Nat.add_sub_cancel, List.drop_succ_cons]
      exact ih (fun d hd => h d (by simp [hd])) m (by omega)

/-- On a single-byte-per-character string, `takeBytes` is plain `take`. -/
theorem takeBytes_of_ascii {s : List Char} (h : AsciiStr s) :
    ∀ n, n ≤ s.length → takeBytes s n = some (s.take n) := by
  induction s with
  | nil =>
    intro n hn
    rw [List.length_nil, Nat.le_zero] at hn
    subst hn
    simp
  | cons c t ih =>
    intro n hn
    cases n with
    | zero => simp
    | succ m =>
      rw [takeBytes, h c (by simp)]
      simp only [List.length_cons] at hn
      simp only [Nat.le_add_left 1 m, if_pos, Nat.add_sub_cancel, List.take_succ_cons]
      rw [ih (fun d hd => h d (by simp [hd])) m (by omega)]
      rfl

/-- On a single-byte-per-character string, slicing is drop-then-take. -/
theorem strSlice_of_ascii {s : List Char} (h : AsciiStr s) (a b : Nat)
    (hab : a ≤ b) (hb : b ≤ s.length) :
    strSlice s a b = some ((s.drop a).take (b - a)) := by
  rw [strSlice, if_pos hab, dropBytes_of_ascii h a (le_trans hab hb), Option.some_bind]
  refine takeBytes_of_ascii ?_ (b - a) ?_
  · intro c hc
    exact h c (List.mem_of_mem_drop hc)
  · rw [List.length_drop]
    omega

/-! ### The single-owner interner (`src/unsync/interning.rs`) -/

/-- An opaque call-site tag, the model of `&'static Location<'static>`. -/
abbrev Loc := Nat

/-- The model of `unsync::Interner`: index, store, outstanding-view count
`refs`, and the diagnostic tag of the last view acquisition.  The field
`id` stands for the identity of the `Rc` allocation, used only by the
`PartialEq` instance of `Intern` (`Rc::ptr_eq`). -/
structure Interner where
  id : Nat
  index : Trie Char
  store : List Char
  refs : Nat
  lastRef : Option Loc

/-- Model of `Interner::new()`: empty index and store, zero refs, no recorded
location. -/
def Interner.new (ident : Nat) : Interner :=
  { id := ident, index := Trie.new, store := [], refs := 0, lastRef := none }

/-- The model of an `Intern` handle: a span plus the identity of its
owning interner. -/
structure Intern where
  span : Span
  interner : Nat

/-- The `PartialEq for Intern` implementation: `Rc::ptr_eq` on the
interner plus span equality — an identity/offset comparison. -/
def internEq (a b : Intern) : Prop := a.interner = b.interner ∧ a.span = b.span

instance (a b : Intern) : Decidable (internEq a b) := by
  unfold internEq
  infer_instance

/-- The body shared by `unsync::Interner::try_intern` (after its refs
check) and `sync::InternerInternal::intern_uncontested`: look the string
up; on a miss record the store's byte length as `start`, append the
string, and insert it (registering all suffixes).  Returns the span and
the new index and store. -/
def internU (ix : Trie Char) (store s : List Char) : Span × Trie Char × List Char :=
  match ix.get s with
  | some sp => (sp, ix, store)
  | none =>
    let start := utf8Len store
    let r := ix.insert s start
    (r.1, r.2, store ++ s)

/-- Result of `unsync::Interner::try_intern`.  `panicked` models the
`unwrap()` of a `None` `last_ref`. -/
inductive TryRes where
  | ok (h : Intern) (σ : Interner)
  | err (l : Loc)
  | panicked

/-- Result of `unsync::Interner::intern`: on `OutstandingRef(loc)` it
panics with a message naming `loc`. -/
inductive InternRes where
  | ok (h : Intern) (σ : Interner)
  | panicLoc (l : Loc)
  | panicked

/-- Model of `unsync::Interner::try_intern`: if any view is outstanding, unwrap the
recorded last location (panicking when it was never recorded) and return
the `OutstandingRef` error; otherwise run the uncontested intern body. -/
def tryIntern (σ : Interner) (s : List Char) : TryRes :=
  if σ.refs > 0 then
    match σ.lastRef with
    | none => .panicked
    | some l => .err l
  else
    let r := internU σ.index σ.store s
    .ok ⟨r.1, σ.id⟩ { σ with index := r.2.1, store := r.2.2 }

/-- Model of `unsync::Interner::intern`: delegates to `try_intern` and panics on
its error, naming the recorded location. -/
def intern (σ : Interner) (s : List Char) : InternRes :=
  match tryIntern σ s with
  | .ok h σ1 => .ok h σ1
  | .err l => .panicLoc l
  | .panicked => .panicked

/-- Model of `unsync::Intern::get_ref`: records the caller location (only when
`debug_assertions` — the `dbg` flag — is on), increments the refcount and
slices the store by the handle's span.  A `none` text models the Rust
panic on an invalid byte range. -/
def getRef (dbg : Bool) (loc : Loc) (σ : Interner) (h : Intern) :
    Option (List Char) × Interner :=
  (strSlice σ.store h.span.1 h.span.2,
   { σ with lastRef := if dbg then some loc else σ.lastRef, refs := σ.refs + 1 })

/-- Model of `Drop for unsync::InternRef`: panic (`none`) when the count is already
zero, else decrement. -/
def dropRef (σ : Interner) : Option Interner :=
  if σ.refs = 0 then none else some { σ with refs := σ.refs - 1 }

/-- States of (index, store) reachable by a sequence of successful interns
from a fresh interner, together with the list of interned strings (most
recent first). -/
inductive SR : Trie Char → List Char → List (List Char) → Prop where
  | base : SR Trie.new [] []
  | step (ix : Trie Char) (store : List Char) (hist : List (List Char)) (s : List Char) :
      SR ix store hist →
      SR (internU ix store s).2.1 (internU ix store s).2.2 (s :: hist)

/-- Projection helpers used to state concrete-evaluation theorems. -/
def TryRes.spanOf : TryRes → Option Span
  | .ok h _ => some h.span
  | _ => none

/-- Store of the interner returned by a successful `try_intern`. -/
def TryRes.storeOf : TryRes → Option (List Char)
  | .ok _ σ => some σ.store
  | _ => none

/-- Whether a `try_intern` call panicked (modelling the `unwrap` panic). -/
def TryRes.isPanic : TryRes → Bool
  | .panicked => true
  | _ => false

/-- Text produced by taking a view of the result of a successful
`try_intern`; `some none` means `get_ref` panicked while slicing. -/
def TryRes.viewOf (dbg : Bool) (loc : Loc) : TryRes → Option (Option (List Char))
  | .ok h σ => some (getRef dbg loc σ h).1
  | _ => none

/-- Run a second `try_intern` on the interner state produced by a first
one. -/
def TryRes.andIntern (s : List Char) : TryRes → Option TryRes
  | .ok _ σ => some (tryIntern σ s)
  | _ => none

/-- Run `get_ref` on a successful `try_intern` result and keep (text,
updated interner, handle). -/
def TryRes.andGetRef (dbg : Bool) (loc : Loc) : TryRes → Option (Option (List Char) × Interner × Intern)
  | .ok h σ => some ((getRef dbg loc σ h).1, (getRef dbg loc σ h).2, h)
  | _ => none

/-! ### Invariants of reachable interner states -/

/-- A prefix of a dropped tail is an infix. -/
theorem infix_of_prefix_drop {α : Type} {p key : List α} {i : Nat}
    (h : p <+: key.drop i) : p <:+: key :=
  List.IsInfix.trans h.isInfix (List.drop_suffix i key).isInfix

/-- A nonempty prefix of `key.drop i` forces `i + p.length ≤ key.length`. -/
theorem add_length_le_of_prefix_drop {α : Type} {p key : List α} {i : Nat}
    (h : p <+: key.drop i) (hp : 1 ≤ p.length) : i + p.length ≤ key.length := by
  have := h.length_le
  rw [List.length_drop] at this
  omega

/-- On a lookup hit, `intern_uncontested` changes nothing. -/
theorem internU_hit {ix : Trie Char} (store : List Char) {s : List Char} {sp : Span}
    (h : ix.get s = some sp) : internU ix store s = (sp, ix, store) := by
  rw [internU, h]

/-- On a lookup miss, `intern_uncontested` appends and inserts at the
store's byte length. -/
theorem internU_miss {ix : Trie Char} (store : List Char) {s : List Char}
    (h : ix.get s = none) :
    internU ix store s =
      ((ix.insert s (utf8Len store)).1, (ix.insert s (utf8Len store)).2, store ++ s) := by
  rw [internU, h]

/-- The root span of every reachable index is still `[0,0)`. -/
theorem SR.rootSpan_eq {ix : Trie Char} {store : List Char} {hist : List (List Char)}
    (h : SR ix store hist) : ix.rootSpan = mkSpan 0 0 := by
  induction h with
  | base => rfl
  | step ix store hist s hr ih =>
    rw [internU]
    cases hget : ix.get s with
    | some sp => exact ih
    | none => rw [Trie.insert_rootSpan]; exact ih

/-- Empty-string lookup on every reachable index yields `[0,0)`. -/
theorem SR.get_nil_eq {ix : Trie Char} {store : List Char} {hist : List (List Char)}
    (h : SR ix store hist) : ix.get [] = some (mkSpan 0 0) := by
  rw [Trie.get_nil, h.rootSpan_eq]

/-- Every string in the interning history has a span in the index. -/
theorem SR.hist_present {ix : Trie Char} {store : List Char} {hist : List (List Char)}
    (h : SR ix store hist) : ∀ s ∈ hist, ∃ sp, ix.get s = some sp := by
  induction h with
  | base => intro s hs; cases hs
  | step ix store hist s hr ih =>
    intro u hu
    rw [internU]
    cases hget : ix.get s with
    | some sp =>
      rcases List.mem_cons.mp hu with rfl | hmem
      · exact ⟨sp, hget⟩
      · exact ih u hmem
    | none =>
      rcases List.mem_cons.mp hu with rfl | hmem
      · exact ⟨_, Trie.insert_get_self ix u (utf8Len store)⟩
      · obtain ⟨sp, hsp⟩ := ih u hmem
        exact ⟨sp, Trie.insert_preserves ix s (utf8Len store) u sp hsp⟩

/-- Every nonempty path present in a reachable index is an infix of some
previously interned string. -/
theorem SR.paths_infix {ix : Trie Char} {store : List Char} {hist : List (List Char)}
    (h : SR ix store hist) :
    ∀ p sp, ix.get p = some sp → p = [] ∨ ∃ s ∈ hist, p <:+: s := by
  induction h with
  | base =>
    intro p sp hp
    cases p with
    | nil => exact Or.inl rfl
    | cons a q => simp [Trie.new, Trie.get_node_cons, alookup] at hp
  | step ix store hist s hr ih =>
    intro p sp hp
    rw [internU] at hp
    cases hget : ix.get s with
    | some sp2 =>
      rw [hget] at hp
      rcases ih p sp hp with hnil | ⟨u, hu, hinf⟩
      · exact Or.inl hnil
      · exact Or.inr ⟨u, List.mem_cons_of_mem s hu, hinf⟩
    | none =>
      rw [hget] at hp
      rcases Trie.insert_get_cases ix s (utf8Len store) p sp hp with hold | ⟨i, hpre, hlen, _⟩
      · rcases ih p sp hold with hnil | ⟨u, hu, hinf⟩
        · exact Or.inl hnil
        · exact Or.inr ⟨u, List.mem_cons_of_mem s hu, hinf⟩
      · exact Or.inr ⟨s, List.mem_cons_self s hist, infix_of_prefix_drop hpre⟩

/-- Reachable indexes are infix-closed: every infix of a present path is
itself present. -/
theorem SR.infix_closed {ix : Trie Char} {store : List Char} {hist : List (List Char)}
    (h : SR ix store hist) :
    ∀ p sp, ix.get p = some sp → ∀ q, q <:+: p → ∃ sp2, ix.get q = some sp2 := by
  induction h with
  | base =>
    intro p sp hp q hq
    cases p with
    | nil =>
      obtain rfl : q = [] := List.infix_nil.mp hq
      exact ⟨_, Trie.get_nil _⟩
    | cons a ps => simp [Trie.new, Trie.get_node_cons, alookup] at hp
  | step ix store hist s hr ih =>
    intro p sp hp q hq
    cases hget : ix.get s with
    | some sp2 =>
      rw [internU_hit store hget] at hp ⊢
      exact ih p sp hp q hq
    | none =>
      rw [internU_miss store hget] at hp ⊢
      rcases Trie.insert_get_cases ix s (utf8Len store) p sp hp with hold | ⟨i, hpre, hlen, _⟩
      · obtain ⟨sp2, hsp2⟩ := ih p sp hold q hq
        exact ⟨sp2, Trie.insert_preserves ix s (utf8Len store) q sp2 hsp2⟩
      · have hps : p <:+: s := infix_of_prefix_drop hpre
        exact Trie.insert_get_of_infix ix s (utf8Len store) q (hq.trans hps)

/-- Every span in a reachable index is well-formed and lies inside the
occupied byte range of the store. -/
theorem SR.spans_bounded {ix : Trie Char} {store : List Char} {hist : List (List Char)}
    (h : SR ix store hist) :
    ∀ p sp, ix.get p = some sp → sp.1 ≤ sp.2 ∧ sp.2 ≤ utf8Len store := by
  induction h with
  | base =>
    intro p sp hp
    cases p with
    | nil =>
      rw [Trie.get_nil] at hp
      obtain rfl : sp = mkSpan 0 0 := by simpa [Trie.new] using hp.symm
      exact ⟨Nat.le_refl 0, Nat.le_refl 0⟩
    | cons a ps => simp [Trie.new, Trie.get_node_cons, alookup] at hp
  | step ix store hist s hr ih =>
    intro p sp hp
    cases hget : ix.get s with
    | some sp2 =>
      rw [internU_hit store hget] at hp ⊢
      exact ih p sp hp
    | none =>
      rw [internU_miss store hget] at hp ⊢
      rcases Trie.insert_get_cases ix s (utf8Len store) p sp hp with hold | ⟨i, hpre, hlen, hsp⟩
      · have := ih p sp hold
        simp only [utf8Len_append]
        omega
      · have hip : i + p.length ≤ s.length := add_length_le_of_prefix_drop hpre hlen
        have hsl := length_le_utf8Len s
        subst hsp
        simp only [mkSpan, utf8Len_append]
        omega

/-- On a lookup miss, `insert` returns the span starting at `start` whose
length is the character count of the key. -/
theorem Trie.insert_span_of_miss {α : Type} [DecidableEq α]
    (t : Trie α) (key : List α) (start : Nat) (h : t.get key = none) :
    (t.insert key start).1 = mkSpan start key.length := by
  show (t.insertOne key start 0).1 = mkSpan start key.length
  rw [Trie.insertOne_span_of_miss key t start 0 h]
  simp [mkSpan]

/-- Slicing inside the left part of an append ignores the appended tail. -/
theorem drop_take_append {α : Type} (l m : List α) (a n : Nat) (h : a + n ≤ l.length) :
    ((l ++ m).drop a).take n = (l.drop a).take n := by
  rw [List.drop_append_of_le_length (by omega), List.take_append_of_le_length]
  rw [List.length_drop]
  omega

/-- Content correctness of an index w.r.t. a store: every present path's
span is well-formed, in range, and slices the store to exactly that path.
(Offsets are character offsets; on an all-ASCII store these coincide with
the byte offsets the code uses.) -/
def ContentOK (ix : Trie Char) (store : List Char) : Prop :=
  ∀ p sp, ix.get p = some sp →
    sp.2 = sp.1 + p.length ∧ sp.1 + p.length ≤ store.length ∧
      (store.drop sp.1).take p.length = p

/-- Over an all-ASCII interning history, every reachable state is
content-correct and its store is all-ASCII. -/
theorem SR.content {ix : Trie Char} {store : List Char} {hist : List (List Char)}
    (h : SR ix store hist) :
    (∀ s ∈ hist, AsciiStr s) → ContentOK ix store ∧ AsciiStr store := by
  induction h with
  | base =>
    intro _
    refine ⟨?_, AsciiStr.nil⟩
    intro p sp hp
    cases p with
    | nil =>
      rw [Trie.get_nil] at hp
      obtain rfl : mkSpan 0 0 = sp := by simpa [Trie.new] using hp
      exact ⟨rfl, by simp [mkSpan], by simp [mkSpan]⟩
    | cons a ps => simp [Trie.new, Trie.get_node_cons, alookup] at hp
  | step ix store hist s hr ih =>
    intro ha
    have has : AsciiStr s := ha s (List.mem_cons_self s hist)
    obtain ⟨ihc, ihstore⟩ := ih (fun u hu => ha u (List.mem_cons_of_mem s hu))
    have hstart : utf8Len store = store.length := utf8Len_of_ascii ihstore
    cases hget : ix.get s with
    | some sp2 =>
      rw [internU_hit store hget]
      exact ⟨ihc, ihstore⟩
    | none =>
      rw [internU_miss store hget]
      refine ⟨?_, AsciiStr.append ihstore has⟩
      intro p sp hp
      rcases Trie.insert_get_cases ix s (utf8Len store) p sp hp with hold | ⟨i, hpre, hlen, hsp⟩
      · obtain ⟨e1, e2, e3⟩ := ihc p sp hold
        refine ⟨e1, by simp only [List.length_append]; omega, ?_⟩
        rw [drop_take_append store s sp.1 p.length (by omega)]
        exact e3
      · have hip : i + p.length ≤ s.length := add_length_le_of_prefix_drop hpre hlen
        subst hsp
        refine ⟨rfl, ?_, ?_⟩
        · simp only [mkSpan, List.length_append]
          omega
        · show ((store ++ s).drop (utf8Len store + i)).take p.length = p
          rw [hstart, List.drop_append]
          exact (List.prefix_iff_eq_take.mp hpre).symm

/-- With no outstanding views, `try_intern` always succeeds and runs the
uncontested body. -/
theorem tryIntern_ok_of_refs_zero (σ : Interner) (s : List Char) (h0 : σ.refs = 0) :
    tryIntern σ s = .ok ⟨(internU σ.index σ.store s).1, σ.id⟩
      { σ with index := (internU σ.index σ.store s).2.1,
               store := (internU σ.index σ.store s).2.2 } := by
  rw [tryIntern, if_neg (by omega)]

/-! ### The thread-safe interner (`src/sync/interning.rs`): counters

The counter discipline of `sync::Intern::get_ref` and
`Drop for sync::InternRef`, with participants identified by a `ThreadId`
(modelled as `Nat`). -/

/-- The `HashMap::get_mut`-or-`insert` bump performed by `get_ref` on
`local_refs`: increment the binding, or bind the key to `1`. -/
def abump (l : List (Nat × Nat)) (tid : Nat) : List (Nat × Nat) :=
  match alookup l tid with
  | some n => aset l tid (n + 1)
  | none => aset l tid 1

/-- Counter state of the sync interner: the global `refs`, the
per-participant `local_refs`, and the `last_ref` diagnostic tag. -/
structure SyncCtr where
  refs : Nat
  localRefs : List (Nat × Nat)
  lastRef : Option Loc

/-- The counter effect of `sync::Intern::get_ref`: record the caller
location, increment the global count and the caller's personal count. -/
def syncAcquire (σ : SyncCtr) (tid : Nat) (loc : Loc) : SyncCtr :=
  { refs := σ.refs + 1, localRefs := abump σ.localRefs tid, lastRef := some loc }

/-- The counter effect of `Drop for sync::InternRef`: panic (`none`) when
the caller's personal count is absent (`unreachable!()`) or zero, or when
the global count is zero; otherwise decrement both. -/
def syncRelease (σ : SyncCtr) (tid : Nat) : Option SyncCtr :=
  match alookup σ.localRefs tid with
  | none => none
  | some 0 => none
  | some (n + 1) =>
    if σ.refs = 0 then none
    else some { refs := σ.refs - 1, localRefs := aset σ.localRefs tid n,
                lastRef := σ.lastRef }

/-- A view acquisition or release event by a participant. -/
inductive ViewEv where
  | acq (tid : Nat) (loc : Loc)
  | rel (tid : Nat)

/-- Run a sequence of view events through the counter protocol; `none`
models a panic along the way. -/
def runViews : SyncCtr → List ViewEv → Option SyncCtr
  | σ, [] => some σ
  | σ, .acq tid loc :: evs => runViews (syncAcquire σ tid loc) evs
  | σ, .rel tid :: evs =>
    match syncRelease σ tid with
    | none => none
    | some σ1 => runViews σ1 evs

/-- Ghost bookkeeping of live views per participant: an acquisition adds a
live view, a release removes one and is only well-formed (each view
released by the participant that acquired it, never released twice) when
that participant has a live view. -/
def ghostRun : List (Nat × Nat) → List ViewEv → Option (List (Nat × Nat))
  | g, [] => some g
  | g, .acq tid _ :: evs => ghostRun (abump g tid) evs
  | g, .rel tid :: evs =>
    match alookup g tid with
    | some (n + 1) => ghostRun (aset g tid n) evs
    | _ => none

/-- Total value of a counter map: the number of live views it records. -/
def asum (l : List (Nat × Nat)) : Nat := (l.map Prod.snd).sum

@[simp] theorem asum_nil : asum [] = 0 := rfl

@[simp] theorem asum_cons (k v : Nat) (l : List (Nat × Nat)) :
    asum ((k, v) :: l) = v + asum l := by
  simp [asum]

theorem asum_aset_of_lookup (l : List (Nat × Nat)) (t n v : Nat)
    (h : alookup l t = some n) : asum (aset l t v) + n = asum l + v := by
  induction l with
  | nil => simp [alookup] at h
  | cons p rest ih =>
    obtain ⟨k, u⟩ := p
    by_cases hk : k = t
    · subst hk
      rw [alookup_cons, if_pos rfl, Option.some.injEq] at h
      subst h
      simp [aset]
      omega
    · rw [alookup_cons, if_neg hk] at h
      simp only [aset, if_neg hk, asum_cons]
      have := ih h
      omega

theorem asum_aset_of_none (l : List (Nat × Nat)) (t v : Nat)
    (h : alookup l t = none) : asum (aset l t v) = asum l + v := by
  induction l with
  | nil => simp [aset]
  | cons p rest ih =>
    obtain ⟨k, u⟩ := p
    by_cases hk : k = t
    · subst hk
      rw [alookup_cons, if_pos rfl] at h
      cases h
    · rw [alookup_cons, if_neg hk] at h
      simp only [aset, if_neg hk, asum_cons]
      have := ih h
      omega

theorem alookup_le_asum (l : List (Nat × Nat)) (t n : Nat)
    (h : alookup l t = some n) : n ≤ asum l := by
  induction l with
  | nil => cases h
  | cons p rest ih =>
    obtain ⟨k, u⟩ := p
    by_cases hk : k = t
    · rw [alookup_cons, if_pos hk, Option.some.injEq] at h
      subst h
      simp only [asum_cons]
      omega
    · rw [alookup_cons, if_neg hk] at h
      have := ih h
      simp only [asum_cons]
      omega

theorem asum_abump (l : List (Nat × Nat)) (t : Nat) :
    asum (abump l t) = asum l + 1 := by
  cases h : alookup l t with
  | some n =>
    simp only [abump, h]
    have := asum_aset_of_lookup l t n (n + 1) h
    omega
  | none =>
    simp only [abump, h]
    exact asum_aset_of_none l t 1 h

/-- Running the counter protocol tracks the ghost live-view map exactly:
validity of the event sequence guarantees no panic, the `local_refs` map
equals the per-participant live-view counts, and the global count equals
their total. -/
theorem runViews_ghost :
    ∀ (evs : List ViewEv) (σ : SyncCtr) (g g2 : List (Nat × Nat)),
      σ.localRefs = g → σ.refs = asum g → ghostRun g evs = some g2 →
      ∃ σ2, runViews σ evs = some σ2 ∧ σ2.localRefs = g2 ∧ σ2.refs = asum g2
  | [], σ, g, g2, hL, hR, hg => by
    rw [ghostRun, Option.some.injEq] at hg
    subst hg
    exact ⟨σ, rfl, hL, hR⟩
  | .acq tid loc :: evs, σ, g, g2, hL, hR, hg => by
    rw [ghostRun] at hg
    refine runViews_ghost evs (syncAcquire σ tid loc) (abump g tid) g2 ?_ ?_ hg
    · rw [syncAcquire, hL]
    · rw [syncAcquire]
      show σ.refs + 1 = asum (abump g tid)
      rw [asum_abump, hR]
  | .rel tid :: evs, σ, g, g2, hL, hR, hg => by
    rw [ghostRun] at hg
    cases hlk : alookup g tid with
    | none => simp only [hlk] at hg; cases hg
    | some n =>
      cases n with
      | zero => simp only [hlk] at hg; cases hg
      | succ m =>
        simp only [hlk] at hg
        have hsum := asum_aset_of_lookup g tid (m + 1) m hlk
        have hle : m + 1 ≤ asum g := alookup_le_asum g tid (m + 1) hlk
        have hnz : ¬ σ.refs = 0 := by omega
        simp only [runViews, syncRelease, hL, hlk, if_neg hnz]
        refine runViews_ghost evs _ (aset g tid m) g2 rfl ?_ hg
        show σ.refs - 1 = asum (aset g tid m)
        omega

/-! ### The thread-safe interner: wait protocol transition system

Models `sync::Interner::intern` / `try_intern`, `get_ref` and the drop
glue as a transition system over thread events.  `intern` checks the
caller's personal count (fatal on self-contention), then performs a single
`if lock.refs > 0 { cond.wait(&mut lock) }` — the blocked thread is parked
in `waiting`; `notify_all` (fired by a release that brings the global
count to zero) moves waiters to `woken`; a woken thread re-acquires the
lock and proceeds directly to `intern_uncontested` without re-checking
`refs`.  The `bad` flag records an append performed while the global
outstanding-view count was nonzero. -/

/-- Remove a key's first binding: the effect of taking a parked thread out
of the wait queue. -/
def aremove {κ β : Type} [DecidableEq κ] : List (κ × β) → κ → List (κ × β)
  | [], _ => []
  | (k, v) :: rest, a => if k = a then rest else (k, v) :: aremove rest a

/-- Global state of the concurrent interner model. -/
structure CSt where
  refs : Nat
  localRefs : List (Nat × Nat)
  lastRef : Option Loc
  index : Trie Char
  store : List Char
  waiting : List (Nat × List Char)
  woken : List (Nat × List Char)
  handles : List (Nat × Span)
  bad : Bool

/-- A thread event against the shared interner. -/
inductive CEv where
  | internCall (tid : Nat) (s : List Char)
  | internResume (tid : Nat)
  | viewAcq (tid : Nat) (sp : Span) (loc : Loc)
  | viewRel (tid : Nat)

/-- Model of `sync::Interner::intern` up to its first suspension point: fatal panic
on self-contention; otherwise ensure a `local_refs` entry exists, then
either park on the condition variable (global count nonzero) or run
`intern_uncontested` at once. -/
def stepInternCall (σ : CSt) (tid : Nat) (s : List Char) : Option CSt :=
  match alookup σ.localRefs tid with
  | some (_ + 1) => none
  | some 0 =>
    if σ.refs > 0 then some { σ with waiting := (tid, s) :: σ.waiting }
    else
      let r := internU σ.index σ.store s
      some { σ with index := r.2.1, store := r.2.2, handles := (tid, r.1) :: σ.handles }
  | none =>
    let lr := aset σ.localRefs tid 0
    if σ.refs > 0 then some { σ with localRefs := lr, waiting := (tid, s) :: σ.waiting }
    else
      let r := internU σ.index σ.store s
      some { σ with localRefs := lr, index := r.2.1, store := r.2.2, handles := (tid, r.1) :: σ.handles }

/-- A woken thread re-acquires the lock and resumes `intern` directly
after the `if`-guarded wait: it proceeds to `intern_uncontested` without
re-checking the global count.  `bad` is set when this appends to the store
while the global count is nonzero. -/
def stepInternResume (σ : CSt) (tid : Nat) : Option CSt :=
  match alookup σ.woken tid with
  | none => none
  | some s =>
    let r := internU σ.index σ.store s
    some { σ with woken := aremove σ.woken tid, index := r.2.1, store := r.2.2, handles := (tid, r.1) :: σ.handles, bad := σ.bad || (decide (0 < σ.refs) && decide (σ.store.length < r.2.2.length)) }

/-- Model of `sync::Intern::get_ref` by a thread holding the named handle: record
the location, bump both counters, slice the store (panic when the range is
invalid). -/
def stepViewAcq (σ : CSt) (tid : Nat) (sp : Span) (loc : Loc) : Option CSt :=
  if (tid, sp) ∈ σ.handles then
    match strSlice σ.store sp.1 sp.2 with
    | none => none
    | some _ =>
      some { σ with lastRef := some loc, refs := σ.refs + 1, localRefs := abump σ.localRefs tid }
  else none

/-- Model of `Drop for sync::InternRef`: decrement the personal and global counts
(fatal when either is already zero); when the global count reaches zero,
`notify_all` moves every parked waiter to the woken set. -/
def stepViewRel (σ : CSt) (tid : Nat) : Option CSt :=
  match alookup σ.localRefs tid with
  | none => none
  | some 0 => none
  | some (n + 1) =>
    if σ.refs = 0 then none
    else
      if σ.refs - 1 = 0 then
        some { σ with localRefs := aset σ.localRefs tid n, refs := σ.refs - 1, woken := σ.woken ++ σ.waiting, waiting := [] }
      else
        some { σ with localRefs := aset σ.localRefs tid n, refs := σ.refs - 1 }

/-- One transition of the concurrent model. -/
def cstep (σ : CSt) : CEv → Option CSt
  | .internCall tid s => stepInternCall σ tid s
  | .internResume tid => stepInternResume σ tid
  | .viewAcq tid sp loc => stepViewAcq σ tid sp loc
  | .viewRel tid => stepViewRel σ tid

/-- Run a sequence of thread events from a state. -/
def runC : CSt → List CEv → Option CSt
  | σ, [] => some σ
  | σ, e :: evs =>
    match cstep σ e with
    | none => none
    | some σ1 => runC σ1 evs

/-- The freshly constructed shared interner. -/
def cInit : CSt :=
  { refs := 0, localRefs := [], lastRef := none, index := Trie.new, store := [],
    waiting := [], woken := [], handles := [], bad := false }

/-! ### Helper lemmas for the claim theorems -/

/-- Inserting the empty key returns the root's span (the suffix loop then
stops immediately). -/
theorem Trie.insert_nil_span {α : Type} [DecidableEq α] (t : Trie α) (o : Nat) :
    (t.insert ([] : List α) o).1 = t.rootSpan := by
  cases t
  rfl

/-- Interning the same string twice in a row is a lookup hit the second
time and returns the same span and state. -/
theorem internU_second (ix : Trie Char) (store A : List Char) :
    internU (internU ix store A).2.1 (internU ix store A).2.2 A
      = ((internU ix store A).1, (internU ix store A).2.1, (internU ix store A).2.2) := by
  cases hget : ix.get A with
  | some sp =>
    rw [internU_hit store hget]
    exact internU_hit store hget
  | none =>
    rw [internU_miss store hget]
    exact internU_hit (store ++ A) (Trie.insert_get_self ix A (utf8Len store))


/-- How a span sits inside another: the "address lies within the stored
range" comparison of the spec's substring-reuse property. -/
def spanWithin (inner outer : Span) : Prop := outer.1 ≤ inner.1 ∧ inner.2 ≤ outer.2

instance (inner outer : Span) : Decidable (spanWithin inner outer) := by
  unfold spanWithin
  infer_instance

/-! ### The claims -/

/-- C2: after `insert` of the character sequence of a string `S` (which
also registers every proper suffix), `lookup` of any substring of `S`
returns `Some` span; and a lookup whose path terminates early (a child is
missing) returns `None` — never an ancestor's span, since `get` answers
only at the exact end of a fully present path. -/
theorem c2_substring_retrievability :
    (∀ (t : Trie Char) (S : List Char) (o : Nat) (T : List Char),
        T <:+: S → ∃ sp, ((t.insert S o).2).get T = some sp) ∧
    (∀ (t : Trie Char) (key : List Char),
        t.subtrieAt key = none → t.get key = none) :=
  ⟨fun t S o T h => Trie.insert_get_of_infix t S o T h,
   fun t key h => Trie.get_eq_none_of_subtrie t key h⟩

/-- Witness for C2 at concrete inputs: "ell" is a substring of "hello",
and the fresh trie has no path for "x". -/
theorem c2_witness :
    (∃ sp, ((Trie.new.insert ['h','e','l','l','o'] 0).2).get ['e','l','l'] = some sp) ∧
    Trie.get (Trie.new : Trie Char) ['x'] = none :=
  ⟨c2_substring_retrievability.1 Trie.new ['h','e','l','l','o'] 0 ['e','l','l'] (by decide),
   c2_substring_retrievability.2 Trie.new ['x'] rfl⟩

/-- C9: first-writer-wins — every `get` answer survives any later
insertion unchanged; the fresh root's span is `[0,0)`; and on every
reachable index, empty-string lookup and empty-string insert yield
`[0,0)`. -/
theorem c9_first_writer_wins :
    (∀ (t : Trie Char) (key : List Char) (o : Nat) (p : List Char) (sp : Span),
        t.get p = some sp → ((t.insert key o).2).get p = some sp) ∧
    (Trie.new : Trie Char).get [] = some (mkSpan 0 0) ∧
    (∀ (ix : Trie Char) (store : List Char) (hist : List (List Char)), SR ix store hist →
        ix.get [] = some (mkSpan 0 0) ∧
        ∀ o, (ix.insert ([] : List Char) o).1 = mkSpan 0 0) := by
  refine ⟨fun t key o p sp h => Trie.insert_preserves t key o p sp h, by decide, ?_⟩
  intro ix store hist hr
  exact ⟨hr.get_nil_eq, fun o => by rw [Trie.insert_nil_span, hr.rootSpan_eq]⟩

/-- Witness for C9 at concrete inputs: the root span survives inserting
"a", and the fresh interner state answers `[0,0)` for the empty string. -/
theorem c9_witness :
    ((Trie.new.insert ['a'] 0).2).get [] = some (mkSpan 0 0) ∧
    ((Trie.new : Trie Char).get [] = some (mkSpan 0 0) ∧
      ∀ o, ((Trie.new : Trie Char).insert ([] : List Char) o).1 = mkSpan 0 0) :=
  ⟨c9_first_writer_wins.1 Trie.new ['a'] 0 [] (mkSpan 0 0) (by decide),
   c9_first_writer_wins.2.2 Trie.new [] [] SR.base⟩

/-- C6: dedup / canonical spans — interning the same content twice into
the same store (with no outstanding views) yields equal `Intern` handles;
handle equality is by definition (same `Interner` instance, equal `Span`),
and it holds here because the index answers one canonical span per
distinct string. -/
theorem c6_dedup_canonical_handles (σ : Interner) (A : List Char) (h0 : σ.refs = 0) :
    ∃ h1 σ1 h2 σ2, tryIntern σ A = TryRes.ok h1 σ1 ∧ tryIntern σ1 A = TryRes.ok h2 σ2 ∧
      h1 = h2 ∧ internEq h1 h2 ∧
      (internEq h1 h2 ↔ h1.interner = h2.interner ∧ h1.span = h2.span) := by
  have e2 := internU_second σ.index σ.store A
  have hsp : (internU ((internU σ.index σ.store A).2.1) ((internU σ.index σ.store A).2.2) A).1
      = (internU σ.index σ.store A).1 := congrArg Prod.fst e2
  refine ⟨_, _, _, _, tryIntern_ok_of_refs_zero σ A h0,
    tryIntern_ok_of_refs_zero _ A h0, ?_, ?_, Iff.rfl⟩
  · exact congrArg (fun z : Span => (⟨z, σ.id⟩ : Intern)) hsp.symm
  · exact ⟨rfl, hsp.symm⟩

/-- Witness for C6 at a concrete input: interning "hi" twice into a fresh
interner. -/
theorem c6_witness :
    ∃ h1 σ1 h2 σ2, tryIntern (Interner.new 0) ['h','i'] = TryRes.ok h1 σ1 ∧
      tryIntern σ1 ['h','i'] = TryRes.ok h2 σ2 ∧ h1 = h2 ∧ internEq h1 h2 ∧
      (internEq h1 h2 ↔ h1.interner = h2.interner ∧ h1.span = h2.span) :=
  c6_dedup_canonical_handles (Interner.new 0) ['h','i'] rfl

/-- C10: interning the empty string on any reachable interner with no
outstanding views succeeds, does not touch the store, returns the span
`[0,0)`, its view dereferences to the empty string, and a second
empty-string handle from the same interner is equal to the first. -/
theorem c10_empty_string_intern (σ : Interner) (hist : List (List Char)) (dbg : Bool)
    (loc : Loc) (hr : SR σ.index σ.store hist) (h0 : σ.refs = 0) :
    ∃ h σ1, tryIntern σ [] = TryRes.ok h σ1 ∧ h.span = mkSpan 0 0 ∧ σ1.store = σ.store ∧
      σ1.index = σ.index ∧ (getRef dbg loc σ1 h).1 = some [] ∧
      ∃ h2 σ2, tryIntern σ1 [] = TryRes.ok h2 σ2 ∧ internEq h h2 := by
  have hget : σ.index.get [] = some (mkSpan 0 0) := hr.get_nil_eq
  have hU := internU_hit σ.store hget
  refine ⟨⟨mkSpan 0 0, σ.id⟩, σ, ?_, rfl, rfl, rfl, strSlice_zero_zero σ.store,
    ⟨mkSpan 0 0, σ.id⟩, σ, ?_, ⟨rfl, rfl⟩⟩
  · rw [tryIntern_ok_of_refs_zero σ [] h0, hU]
  · rw [tryIntern_ok_of_refs_zero σ [] h0, hU]

/-- Witness for C10 at the concrete fresh interner. -/
theorem c10_witness :
    ∃ h σ1, tryIntern (Interner.new 0) [] = TryRes.ok h σ1 ∧ h.span = mkSpan 0 0 ∧
      σ1.store = (Interner.new 0).store ∧ σ1.index = (Interner.new 0).index ∧
      (getRef false 3 σ1 h).1 = some [] ∧
      ∃ h2 σ2, tryIntern σ1 [] = TryRes.ok h2 σ2 ∧ internEq h h2 :=
  c10_empty_string_intern (Interner.new 0) [] false 3 SR.base rfl

/-- Counterexample to C7 as stated: intern "b", then "ab" (stored at byte
range `[1,3)`), then re-intern "b" — a substring of "ab".  First-writer-
wins canonicalizes "b" to the span `[0,1)` of the earlier interning, which
does not lie within "ab"'s stored range `[1,3)`. -/
theorem c7_counterexample :
    (((tryIntern (Interner.new 0) ['b']).andIntern ['a','b']).bind
        (TryRes.andIntern ['b'])).bind TryRes.spanOf = some (0, 1) ∧
    ((tryIntern (Interner.new 0) ['b']).andIntern ['a','b']).bind TryRes.spanOf
      = some (1, 3) ∧
    (['b'] : List Char) <:+: ['a','b'] ∧
    ¬ spanWithin (0, 1) (1, 3) := by
  refine ⟨by decide, by decide, by decide, by decide⟩

/-- C7 (amended): interning a substring `T` of a previously interned
string `S` (no outstanding views) does not grow the backing buffer and
returns a handle whose span lies inside the occupied byte range of the
buffer — though not necessarily inside `S`'s own stored range, since
first-writer-wins may canonicalize `T` inside an earlier interned string;
interning a nonempty string that is a substring of no previously interned
string grows the buffer by exactly its byte length. -/
theorem c7_substring_reuse :
    (∀ (σ : Interner) (hist : List (List Char)) (S T : List Char),
        SR σ.index σ.store hist → σ.refs = 0 → S ∈ hist → T <:+: S →
        ∃ h σ1, tryIntern σ T = TryRes.ok h σ1 ∧ σ1.store = σ.store ∧
          h.span.1 ≤ h.span.2 ∧ h.span.2 ≤ utf8Len σ.store) ∧
    (∀ (σ : Interner) (hist : List (List Char)) (T : List Char),
        SR σ.index σ.store hist → σ.refs = 0 → T ≠ [] → (∀ S ∈ hist, ¬ T <:+: S) →
        ∃ h σ1, tryIntern σ T = TryRes.ok h σ1 ∧
          utf8Len σ1.store = utf8Len σ.store + utf8Len T ∧
          utf8Len σ.store < utf8Len σ1.store) := by
  constructor
  · intro σ hist S T hr h0 hS hTS
    obtain ⟨spS, hspS⟩ := hr.hist_present S hS
    obtain ⟨sp, hsp⟩ := hr.infix_closed S spS hspS T hTS
    have hU := internU_hit σ.store hsp
    refine ⟨⟨sp, σ.id⟩, σ, ?_, rfl, (hr.spans_bounded T sp hsp).1,
      (hr.spans_bounded T sp hsp).2⟩
    rw [tryIntern_ok_of_refs_zero σ T h0, hU]
  · intro σ hist T hr h0 hTne hnotin
    have hget : σ.index.get T = none := by
      cases hq : σ.index.get T with
      | none => rfl
      | some sp =>
        rcases hr.paths_infix T sp hq with rfl | ⟨S, hS, hinf⟩
        · exact absurd rfl hTne
        · exact absurd hinf (hnotin S hS)
    have hU := internU_miss σ.store hget
    refine ⟨⟨(σ.index.insert T (utf8Len σ.store)).1, σ.id⟩,
      { σ with index := (σ.index.insert T (utf8Len σ.store)).2, store := σ.store ++ T },
      ?_, ?_, ?_⟩
    · rw [tryIntern_ok_of_refs_zero σ T h0, hU]
    · show utf8Len (σ.store ++ T) = utf8Len σ.store + utf8Len T
      exact utf8Len_append σ.store T
    · show utf8Len σ.store < utf8Len (σ.store ++ T)
      cases T with
      | nil => exact absurd rfl hTne
      | cons c cs =>
        have := utf8Len_pos c cs
        rw [utf8Len_append]
        omega

/-- Witness for C7 at concrete inputs: on the interner that has interned
exactly "b", re-interning the substring "b" leaves the store alone, and
interning the non-substring "x" grows it. -/
theorem c7_witness :
    (∃ h σ1, tryIntern ⟨0, (internU Trie.new [] ['b']).2.1, (internU Trie.new [] ['b']).2.2, 0, none⟩ ['b'] = TryRes.ok h σ1 ∧
       σ1.store = (⟨0, (internU Trie.new [] ['b']).2.1, (internU Trie.new [] ['b']).2.2, 0, none⟩ : Interner).store ∧
       h.span.1 ≤ h.span.2 ∧
       h.span.2 ≤ utf8Len (⟨0, (internU Trie.new [] ['b']).2.1, (internU Trie.new [] ['b']).2.2, 0, none⟩ : Interner).store) ∧
    (∃ h σ1, tryIntern ⟨0, (internU Trie.new [] ['b']).2.1, (internU Trie.new [] ['b']).2.2, 0, none⟩ ['x'] = TryRes.ok h σ1 ∧
       utf8Len σ1.store = utf8Len (⟨0, (internU Trie.new [] ['b']).2.1, (internU Trie.new [] ['b']).2.2, 0, none⟩ : Interner).store + utf8Len ['x'] ∧
       utf8Len (⟨0, (internU Trie.new [] ['b']).2.1, (internU Trie.new [] ['b']).2.2, 0, none⟩ : Interner).store < utf8Len σ1.store) :=
  ⟨c7_substring_reuse.1 ⟨0, (internU Trie.new [] ['b']).2.1, (internU Trie.new [] ['b']).2.2, 0, none⟩
      [['b']] ['b'] ['b'] (SR.step Trie.new [] [] ['b'] SR.base) rfl (by decide) (by decide),
   c7_substring_reuse.2 ⟨0, (internU Trie.new [] ['b']).2.1, (internU Trie.new [] ['b']).2.2, 0, none⟩
      [['b']] ['x'] (SR.step Trie.new [] [] ['b'] SR.base) rfl (by decide) (by decide)⟩

/-- Counterexample to C1 as stated: interning the two-character string
"éa" on a fresh interner and taking a view yields "é", not "éa".  The trie
records the span as `(byte start, byte start + character count)` =
`[0,2)`, but "éa" occupies three bytes, so the byte slice `[0,2)` covers
only the two-byte "é". -/
theorem c1_counterexample :
    TryRes.viewOf false 0 (tryIntern (Interner.new 0) ['é', 'a']) = some (some ['é']) ∧
    (['é'] : List Char) ≠ ['é', 'a'] := by
  refine ⟨by decide, by decide⟩

/-- C1 (amended): for every all-ASCII string `s` (each character one UTF-8
byte) interned — with no outstanding views — into a reachable interner
whose history is all-ASCII, acquiring a view of the returned handle yields
text equal to `s`: the slice of the backing buffer bounded by the handle's
span spells exactly `s`.  (The uncontested intern body is shared verbatim
by both the single-owner and the thread-safe mode.) -/
theorem c1_round_trip_ascii (σ : Interner) (hist : List (List Char)) (s : List Char)
    (dbg : Bool) (loc : Loc) (hr : SR σ.index σ.store hist)
    (hh : ∀ u ∈ hist, AsciiStr u) (hs : AsciiStr s) (h0 : σ.refs = 0) :
    ∃ h σ1, tryIntern σ s = TryRes.ok h σ1 ∧ (getRef dbg loc σ1 h).1 = some s := by
  obtain ⟨hc, hstore⟩ := hr.content hh
  have hsl : utf8Len σ.store = σ.store.length := utf8Len_of_ascii hstore
  cases hget : σ.index.get s with
  | some sp =>
    obtain ⟨e1, e2, e3⟩ := hc s sp hget
    refine ⟨⟨sp, σ.id⟩, σ, ?_, ?_⟩
    · rw [tryIntern_ok_of_refs_zero σ s h0, internU_hit σ.store hget]
    · show strSlice σ.store sp.1 sp.2 = some s
      rw [strSlice_of_ascii hstore sp.1 sp.2 (by omega) (by omega)]
      have hd : sp.2 - sp.1 = s.length := by omega
      rw [hd, e3]
  | none =>
    have hspan := Trie.insert_span_of_miss σ.index s (utf8Len σ.store) hget
    refine ⟨⟨(σ.index.insert s (utf8Len σ.store)).1, σ.id⟩,
      { σ with index := (σ.index.insert s (utf8Len σ.store)).2, store := σ.store ++ s },
      ?_, ?_⟩
    · rw [tryIntern_ok_of_refs_zero σ s h0, internU_miss σ.store hget]
    · show strSlice (σ.store ++ s) ((σ.index.insert s (utf8Len σ.store)).1).1
        ((σ.index.insert s (utf8Len σ.store)).1).2 = some s
      rw [hspan]
      show strSlice (σ.store ++ s) (utf8Len σ.store) (utf8Len σ.store + s.length) = some s
      rw [strSlice_of_ascii (AsciiStr.append hstore hs) (utf8Len σ.store)
        (utf8Len σ.store + s.length) (Nat.le_add_right _ _)
        (by rw [List.length_append]; omega)]
      have hd : utf8Len σ.store + s.length - utf8Len σ.store = s.length := by omega
      rw [hd, hsl, List.drop_left, List.take_length]

/-- Witness for C1 at a concrete input: round trip of "ab" on the fresh
interner. -/
theorem c1_witness :
    ∃ h σ1, tryIntern (Interner.new 0) ['a','b'] = TryRes.ok h σ1 ∧
      (getRef true 7 σ1 h).1 = some ['a','b'] :=
  c1_round_trip_ascii (Interner.new 0) [] ['a','b'] true 7 SR.base
    (by intro u hu; cases hu) (by decide) rfl

/-- C3 fails on the code: `intern`/`try_intern` guard the wait with a
single `if lock.refs > 0 { cond.wait(&mut lock) }` instead of a re-checked
loop, so a woken thread proceeds to append without re-checking the global
count.  Trace: thread 1 interns "a" and takes a view; thread 2 calls
`intern("b")` and parks; thread 1 drops its view (count reaches zero,
`notify_all`), then re-acquires a view before thread 2 re-acquires the
lock; thread 2 resumes and appends "b" while the global outstanding-view
count is 1 — the claimed safety consequence is violated. -/
theorem c3_append_while_count_nonzero :
    (runC cInit [CEv.internCall 1 ['a'], CEv.viewAcq 1 (0, 1) 5, CEv.internCall 2 ['b'],
        CEv.viewRel 1, CEv.viewAcq 1 (0, 1) 6, CEv.internResume 2]).map CSt.bad
      = some true := by
  decide

/-- C4 fails on the code: with no outstanding views, `get_ref` on the
handle obtained by interning the single multi-byte character "é" panics —
the trie records the span `[0,1)` (character count), but byte index 1
falls inside the two-byte UTF-8 encoding of "é", so the Rust byte slice
`&store[0..1]` is invalid (modelled by the `none` text). -/
theorem c4_view_construction_panics_on_multibyte :
    TryRes.viewOf false 0 (tryIntern (Interner.new 0) ['é']) = some none := by
  decide

/-- C5 fails on the code: in the single-owner mode `get_ref` records
`last_ref` only under `cfg(debug_assertions)`, yet `try_intern`
unconditionally `unwrap()`s it.  In a release build (`dbg = false`):
intern "a", take a view (so the personal outstanding count is 1, but
`last_ref` stays `None`), then `try_intern "b"` panics on the `unwrap`
instead of returning the typed error — so `try_intern` is not "never
fatal regardless of build configuration". -/
theorem c5_try_intern_fatal_in_release :
    ((tryIntern (Interner.new 0) ['a']).andGetRef false 9).map
      (fun r => (tryIntern r.2.1 ['b']).isPanic) = some true := by
  decide

/-- C8: counter integrity — for every event sequence of view acquisitions
and releases that is well-formed (each view released by the participant
that acquired it: the ghost run succeeds), the counter protocol never
panics, the per-participant counts equal the ghost live-view counts, and
the global count equals the total number of live views (hence it never
underflows at any point of the run); and a release finding an absent or
zero personal count, or a zero global count, halts fatally. -/
theorem c8_counter_integrity :
    (∀ (evs : List ViewEv) (g : List (Nat × Nat)),
        ghostRun [] evs = some g →
        ∃ σ, runViews ⟨0, [], none⟩ evs = some σ ∧ σ.localRefs = g ∧ σ.refs = asum g) ∧
    (∀ (σ : SyncCtr) (tid : Nat),
        (alookup σ.localRefs tid = none ∨ alookup σ.localRefs tid = some 0 ∨ σ.refs = 0) →
        syncRelease σ tid = none) := by
  constructor
  · intro evs g hg
    exact runViews_ghost evs ⟨0, [], none⟩ [] g rfl rfl hg
  · intro σ tid h
    cases hlk : alookup σ.localRefs tid with
    | none => simp [syncRelease, hlk]
    | some n =>
      cases n with
      | zero => simp [syncRelease, hlk]
      | succ m =>
        rcases h with h | h | h
        · rw [hlk] at h; cases h
        · rw [hlk] at h; cases h
        · simp [syncRelease, hlk, h]

/-- Witness for C8 at a concrete event sequence and a concrete fatal
release. -/
theorem c8_witness :
    (∃ σ, runViews ⟨0, [], none⟩ [ViewEv.acq 1 5, ViewEv.acq 2 6, ViewEv.rel 1] = some σ ∧
        σ.localRefs = [(1, 0), (2, 1)] ∧ σ.refs = asum [(1, 0), (2, 1)]) ∧
    syncRelease ⟨0, [(3, 0)], none⟩ 3 = none :=
  ⟨c8_counter_integrity.1 [ViewEv.acq 1 5, ViewEv.acq 2 6, ViewEv.rel 1] [(1, 0), (2, 1)]
      (by decide),
   c8_counter_integrity.2 ⟨0, [(3, 0)], none⟩ 3 (Or.inr (Or.inl (by decide)))⟩

end CrispyStrings
